import Mathlib

set_option maxHeartbeats 1000000

/-!
Shallow embedding of the `fluctus` oscillation-analysis core
(`fluctus/interfaces.py`).  Machine floats are modelled as exact rationals;
Python exceptions and non-termination are modelled with `Option` (with
`none` for a raised error or a loop that never exits, as noted at each
definition).  Transformers that live in the missing `fluctus/preprocessing`
module are modelled from the spec and marked as such.
-/

/-! ## Generic Python-semantics helpers -/

/-- Python `int(...)` applied to a float: truncation toward zero. -/
def pyInt (q : ℚ) : ℤ := if 0 ≤ q then ⌊q⌋ else ⌈q⌉

/-- Python slice `l[a:b]` including negative-index wrap-around:
a negative bound counts from the end, and bounds are clipped to the list. -/
def pySlice {α : Type} (l : List α) (a b : ℤ) : List α :=
  let n : ℤ := l.length
  let norm : ℤ → ℤ := fun i => if i < 0 then max (n + i) 0 else min i n
  (l.take (norm b).toNat).drop (norm a).toNat

/-- `np.sum` of a vector. -/
def listSum (l : List ℚ) : ℚ := l.foldr (fun x acc => x + acc) 0

/-- `np.mean` of a vector (the mean of an empty vector is 0 in this model;
NumPy would produce NaN there, and no claim depends on that value). -/
def listMean (l : List ℚ) : ℚ := listSum l / l.length

/-- The arithmetic grids the code builds (`np.arange`-style): `a + k*d`. -/
def affineGrid (a d : ℚ) (n : ℕ) : List ℚ :=
  (List.range n).map (fun k : ℕ => a + (k : ℚ) * d)

/-! ## GridAlignment: `get_offset` and `get_ntrials` -/

/-- One Python `while offset <= bound: offset += period` loop with explicit
fuel.  `none` means the fuel ran out before the loop exited; the loop of
`get_offset` in `interfaces.py` is this with `bound = stimulus_offset + 39.999`. -/
def offsetLoopF : ℕ → ℚ → ℚ → ℚ → Option ℚ
  | 0, _, _, _ => none
  | fuel + 1, bound, period, offset =>
    if offset ≤ bound then offsetLoopF fuel bound period (offset + period) else some offset

/-- Fuel that provably suffices for the loop whenever `0 < period`
(an upper bound on the number of loop iterations plus the final test). -/
def loopFuel (bound period offset : ℚ) : ℕ := (⌊(bound - offset) / period⌋ + 1).toNat + 1

/-- The loop never exits when fuel runs out for every fuel value: this is the
model of genuine non-termination of the Python `while` loop. -/
def loopDiverges (bound period offset : ℚ) : Prop :=
  ∀ fuel, offsetLoopF fuel bound period offset = none

/-- `get_offset` from `interfaces.py`.  The accumulation loop is run with a
provably sufficient fuel when it terminates; `none` models the case where the
Python loop never exits (period ≤ 0), see `offsetLoopF_none`. -/
def get_offset (stimulus_offset : ℚ) (period : Option ℚ) (discard_transients : Bool) : Option ℚ :=
  match period with
  | none => some stimulus_offset
  | some p =>
    if stimulus_offset < 40 ∧ discard_transients = true then
      offsetLoopF (loopFuel (stimulus_offset + 39999/1000) p stimulus_offset)
        (stimulus_offset + 39999/1000) p stimulus_offset
    else some stimulus_offset

/-- `get_ntrials` from `interfaces.py`: builds the source grid, takes its last
entry as the total time and applies Python `divmod` (floor division).
`none` models the IndexError raised on an empty grid (`nvols = 0`). -/
def get_ntrials (start_offset period tr : ℚ) (nvols : ℕ) : Option ℤ :=
  let source_grid := (List.range nvols).map (fun x : ℕ => (x : ℚ) * tr)
  match source_grid.getLast? with
  | none => none
  | some total_time => some ⌊(total_time - start_offset) / period⌋

/-! ## The Oscillation pipeline orchestrator

The `Oscillation` dataclass of `interfaces.py`.  Fields up to
`discard_transients` are the constructor parameters; the remaining fields are
the mutable state set up by `__post_init__`.  Methods become functions
`Oscillation → ... → Option Oscillation`, with `none` for a raised Python
exception (noted at each occurrence). -/

structure Oscillation where
  tr : ℚ
  period : Option ℚ
  data : List (List ℚ)
  stimulus_offset : ℚ
  labels : Option (List String)
  discard_transients : Bool
  tdata : List (List ℚ)
  transformation_chain : List String
  sampling_rate : ℚ
  grid : List ℚ
  offset : ℚ
  n_trials : ℤ
  emin : Option (List (List ℚ))
  emax : Option (List (List ℚ))
  ids : List String
  deriving DecidableEq

/-- `np.arange(n) * sampling_rate`, as built in `__post_init__` and `reset`. -/
def arangeMul (n : ℕ) (sr : ℚ) : List ℚ := (List.range n).map (fun k : ℕ => (k : ℚ) * sr)

/-- `__post_init__`: construction of an `Oscillation` from its parameters.
`none` models a constructor that raises: `get_offset` diverging (period ≤ 0),
`period is None` reaching `divmod(..., None)` in `get_ntrials` (TypeError), or
`get_ntrials` on zero rows (IndexError). -/
def mkOscillation (tr : ℚ) (period : Option ℚ) (data : List (List ℚ)) (stimulus_offset : ℚ)
    (labels : Option (List String)) (discard_transients : Bool) : Option Oscillation :=
  match period with
  | none => none
  | some p =>
    match get_offset stimulus_offset (some p) discard_transients with
    | none => none
    | some off =>
      match get_ntrials off p tr data.length with
      | none => none
      | some nt =>
        some { tr := tr, period := some p, data := data, stimulus_offset := stimulus_offset,
               labels := labels, discard_transients := discard_transients,
               tdata := data, transformation_chain := [],
               sampling_rate := tr, grid := arangeMul data.length tr,
               offset := off, n_trials := nt, emin := none, emax := none, ids := [""] }

/-- `reset()`: restore the untransformed state (always succeeds). -/
def Oscillation.reset (σ : Oscillation) : Oscillation :=
  { σ with tdata := σ.data, transformation_chain := [], sampling_rate := σ.tr,
           grid := arangeMul σ.data.length σ.tr, emin := none, emax := none }

/-- `_transform`: replace `tdata` by the transformer output and append the
transform name to the chain. -/
def Oscillation.applyT (σ : Oscillation) (f : List (List ℚ) → List (List ℚ))
    (tag : String) : Oscillation :=
  { σ with tdata := f σ.tdata, transformation_chain := σ.transformation_chain ++ [tag] }

/-- Modelled from the spec: `preprocessing.FeatureAverager` (missing from
`src/`) reduces the channels to one value per row by the arithmetic mean. -/
def featureAverage (d : List (List ℚ)) : List (List ℚ) := d.map (fun row => [listMean row])

/-- The channels of `row` carrying label `lab` (the per-label column
selection `np.where(labels == id)` of `Oscillation.average`). -/
def labelSelect (labels : List String) (lab : String) (row : List ℚ) : List ℚ :=
  ((labels.zip row).filter (fun pr => pr.1 == lab)).map (fun pr => pr.2)

/-- Modelled from the spec: the `ColumnTransformer` of per-label
`FeatureAverager`s — one column per distinct label, each the mean of that
label's channels (Python iterates over `set(labels)`; the model uses
first-occurrence order, which the spec leaves semantically insignificant). -/
def labelAverage (labels : List String) (d : List (List ℚ)) : List (List ℚ) :=
  d.map (fun row => labels.dedup.map (fun lab => listMean (labelSelect labels lab row)))

/-- `average()` from `interfaces.py` (always succeeds). -/
def Oscillation.average (σ : Oscillation) : Option Oscillation :=
  match σ.labels with
  | none => some { σ.applyT featureAverage "Label Average" with ids := [""] }
  | some ls => some { σ.applyT (labelAverage ls) "Label Average" with ids := ls.dedup }

/-- Column means of a rows × channels array (`data.mean(axis=0)`), the
number of channels taken from the (rectangular) array shape. -/
def columnMeans (d : List (List ℚ)) (ncols : ℕ) : List ℚ :=
  (List.range ncols).map (fun j => listMean (d.map (fun r => r.getD j 0)))

/-- Modelled from the spec: `preprocessing.PSCScaler.transform` (missing from
`src/`) maps each value to `100*(x - baseline_mean)/baseline_mean`, with the
per-channel baseline means computed by `fit`. -/
def pscTransform (means : List ℚ) (d : List (List ℚ)) : List (List ℚ) :=
  d.map (fun row => (row.zip means).map (fun pr => 100 * (pr.1 - pr.2) / pr.2))

/-- `psc(baseline_begin, baseline_end)` from `interfaces.py`.
`baseline_end = none` models the default `np.inf` (whose `int(...)` conversion
raises OverflowError, caught and replaced by the row count).  `none` models
the *uncaught* ZeroDivisionError raised by
`begin_vol = int(baseline_begin / self.sampling_rate)` when the sampling rate
is zero — that line sits outside the `try` block. -/
def Oscillation.psc (σ : Oscillation) (baseline_begin : ℚ) (baseline_end : Option ℚ) :
    Option Oscillation :=
  if "PSC" ∈ σ.transformation_chain then some σ
  else if σ.sampling_rate = 0 then none
  else
    let begin_vol : ℤ := pyInt (baseline_begin / σ.sampling_rate)
    let end_vol : ℤ :=
      match baseline_end with
      | none => (σ.tdata.length : ℤ)
      | some e => min (pyInt (e / σ.sampling_rate)) (σ.tdata.length : ℤ)
    let means := columnMeans (pySlice σ.tdata begin_vol end_vol) (σ.tdata.headD []).length
    some (σ.applyT (pscTransform means) "PSC")

/-- Add the pre-transform column means back onto every row
(`self.tdata += mean` in `detrend`). -/
def addColMeans (m : List ℚ) (d : List (List ℚ)) : List (List ℚ) :=
  d.map (fun row => (row.zip m).map (fun pr => pr.1 + pr.2))

/-- `detrend(order, keep_mean)` from `interfaces.py`.  Modelled from the spec:
`preprocessing.Detrender` (missing from `src/`) removes a least-squares
polynomial trend of the configured order; its data transformation is
abstracted as the parameter `f` (the polynomial order is folded into `f`),
constrained to preserve the row count where a claim needs it. -/
def Oscillation.detrend (σ : Oscillation) (f : List (List ℚ) → List (List ℚ))
    (keep_mean : Bool) : Option Oscillation :=
  if "Detrend" ∈ σ.transformation_chain then some σ
  else
    let m := columnMeans σ.tdata (σ.tdata.headD []).length
    let σ' := σ.applyT f "Detrend"
    some { σ' with tdata := if keep_mean then addColMeans m σ'.tdata else σ'.tdata }

/-- Row-wise sum of a list of equal-length rows. -/
def vecSum2 : List (List ℚ) → List ℚ
  | [] => []
  | r :: rs => rs.foldl (fun acc x => acc.zipWith (fun a b => a + b) x) r

/-- Modelled from the spec: `preprocessing.TrialAveragingTransformer`
(missing from `src/`) reshapes the rows into `nt` equal-length cycles and
takes the mean across cycles at each within-cycle phase. -/
def trialFold (nt : ℕ) (d : List (List ℚ)) : List (List ℚ) :=
  let cycleLen := d.length / nt
  (List.range cycleLen).map (fun i =>
    (vecSum2 ((List.range nt).map (fun t => d.getD (t * cycleLen + i) []))).map
      (fun x => x / (nt : ℚ)))

/-- `trial_average(bootstrap)` from `interfaces.py`.  The bootstrap
percentile arrays `ci_low_`/`ci_high_` depend on random resampling and are
abstracted as the parameters `ciL`/`ciH` (no claim inspects their values).
`none` models the spec-mandated insufficient-data failure for
`n_trials < 1`, a reshape that does not divide the rows evenly, and the
IndexError of `self.grid[1]` when the folded grid has fewer than 2 points. -/
def Oscillation.trial_average (σ : Oscillation) (bootstrap : Bool)
    (ciL ciH : List (List ℚ)) : Option Oscillation :=
  if σ.n_trials < 1 ∨ ¬ (σ.n_trials.toNat ∣ σ.tdata.length) then none
  else
    let σ' := σ.applyT (trialFold σ.n_trials.toNat) "Trial Average"
    let newgrid := σ.grid.take σ'.tdata.length
    if 2 ≤ newgrid.length then
      some { σ' with emin := if bootstrap then some ciL else σ'.emin,
                     emax := if bootstrap then some ciH else σ'.emax,
                     grid := newgrid,
                     sampling_rate := newgrid.getD 1 0 - newgrid.getD 0 0 }
    else none

/-- Modelled from the spec: the target grid of
`preprocessing.PeriodicGridTransformer` (missing from `src/`) spans from the
start offset to the largest multiple of `period` not exceeding the recording
duration, sampled at the output interval. -/
def targetGridOf (period sampling_in dt offset : ℚ) (n : ℕ) : List ℚ :=
  let duration := ((n : ℚ) - 1) * sampling_in
  let endt := period * (⌊duration / period⌋ : ℚ)
  affineGrid offset dt (⌊(endt - offset) / dt⌋ + 1).toNat

/-- Modelled from the spec: per-channel monotone interpolation of the signal
onto a target time, realized as piecewise-linear interpolation over the
original time coordinates `k·tr`, clamped at the array ends. -/
def interpRowAt (d : List (List ℚ)) (tr t : ℚ) : List ℚ :=
  let pos := t / tr
  let i0 : ℤ := ⌊pos⌋
  let frac := pos - (i0 : ℚ)
  let idx : ℕ → ℕ := fun j => min j (d.length - 1)
  let r0 := d.getD (idx i0.toNat) []
  let r1 := d.getD (idx (i0.toNat + 1)) []
  r0.zipWith (fun a b => (1 - frac) * a + frac * b) r1

/-- `interp(target_sampling_out)` from `interfaces.py`.  `none` models the
arithmetic TypeError on an absent period and the IndexError of
`self.grid[1]` when the target grid has fewer than 2 points. -/
def Oscillation.interp (σ : Oscillation) (dt : ℚ) : Option Oscillation :=
  match σ.period with
  | none => none
  | some p =>
    let tg := targetGridOf p σ.tr dt σ.offset σ.tdata.length
    if 2 ≤ tg.length then
      let newdata := tg.map (fun t => interpRowAt σ.tdata σ.tr t)
      let σ' := σ.applyT (fun _ => newdata) "Crop and Interpolate"
      let newgrid := tg.map (fun t => t - σ.offset)
      some { σ' with grid := newgrid,
                     sampling_rate := newgrid.getD 1 0 - newgrid.getD 0 0 }
    else none

/-- Modelled from the spec: the frequency grid of
`preprocessing.FFTTransformer` (missing from `src/`) — non-negative bins
spaced at `1/(N·sampling_rate)`. -/
def fftFreqs (n : ℕ) (sr : ℚ) : List ℚ :=
  (List.range (n / 2 + 1)).map (fun k : ℕ => (k : ℚ) * (1 / ((n : ℚ) * sr)))

/-- `fft()` from `interfaces.py`.  Modelled from the spec:
the spectrum values of the missing `FFTTransformer` are abstracted as the
parameter `f`, constrained (where a claim needs it) to produce one row per
retained non-negative frequency bin.  `none` models the IndexError of
`self.grid[1]` on a sub-2-bin grid. -/
def Oscillation.fft (σ : Oscillation) (f : List (List ℚ) → List (List ℚ)) :
    Option Oscillation :=
  let freqs := fftFreqs σ.tdata.length σ.sampling_rate
  if 2 ≤ freqs.length then
    let σ' := σ.applyT f "FFT"
    some { σ' with grid := freqs,
                   sampling_rate := freqs.getD 1 0 - freqs.getD 0 0 }
  else none

/-- One successful application of a public transform operation (the
operations named by the claims; the shape hypotheses on the abstracted
transformer bodies are those the spec gives for the missing transformers). -/
inductive Step : Oscillation → Oscillation → Prop
  | average (σ σ' : Oscillation) : σ.average = some σ' → Step σ σ'
  | psc (σ σ' : Oscillation) (b : ℚ) (e : Option ℚ) : σ.psc b e = some σ' → Step σ σ'
  | detrend (σ σ' : Oscillation) (f : List (List ℚ) → List (List ℚ)) (keep : Bool) :
      (∀ d, (f d).length = d.length) → σ.detrend f keep = some σ' → Step σ σ'
  | trial_average (σ σ' : Oscillation) (boot : Bool) (ciL ciH : List (List ℚ)) :
      σ.trial_average boot ciL ciH = some σ' → Step σ σ'
  | interp (σ σ' : Oscillation) (dt : ℚ) : σ.interp dt = some σ' → Step σ σ'
  | fft (σ σ' : Oscillation) (f : List (List ℚ) → List (List ℚ)) :
      (∀ d, (f d).length = d.length / 2 + 1) → σ.fft f = some σ' → Step σ σ'
  | reset (σ : Oscillation) : Step σ σ.reset

/-- The grid is uniformly spaced with spacing `sr`. -/
def uniformGrid (g : List ℚ) (sr : ℚ) : Prop :=
  ∀ i, i + 1 < g.length → g.getD (i + 1) 0 - g.getD i 0 = sr

/-- The §3 core invariant: the grid length equals the `tdata` row count, and
`sampling_rate` is the spacing between consecutive grid values. -/
def gridInvariant (σ : Oscillation) : Prop :=
  σ.grid.length = σ.tdata.length ∧ uniformGrid σ.grid σ.sampling_rate

/-- A sample constructed `Oscillation`: `tr = 1`, `period = 10`, two samples of
one channel, `stimulus_offset = 14` — its derived offset is 54 and its trial
count is the (negative) floor `-6`. -/
def sampleOsc : Oscillation :=
  { tr := 1, period := some 10, data := [[1], [2]], stimulus_offset := 14, labels := none,
    discard_transients := true, tdata := [[1], [2]], transformation_chain := [],
    sampling_rate := 1, grid := arangeMul 2 1, offset := 54, n_trials := -6,
    emin := none, emax := none, ids := [""] }

/-- A small literal `Oscillation` state used to exercise `psc` and `detrend`:
two samples, one channel, unit sampling rate, empty chain. -/
def oscA : Oscillation :=
  { tr := 1, period := some 10, data := [[1], [3]], stimulus_offset := 14, labels := none,
    discard_transients := true, tdata := [[1], [3]], transformation_chain := [],
    sampling_rate := 1, grid := [0, 1], offset := 54, n_trials := -6,
    emin := none, emax := none, ids := [""] }

/-- `oscA` after one successful `psc(0, inf)`: the baseline is the whole
series, with per-channel mean 2, so the values become ±50 percent. -/
def oscAP : Oscillation := { oscA with tdata := [[-50], [50]], transformation_chain := ["PSC"] }

/-- `oscA` after one `detrend` whose (abstracted) trend removal is the
identity and `keep_mean = false`: only the chain changes. -/
def oscAD : Oscillation := { oscA with transformation_chain := ["Detrend"] }

/-! ## DelayEstimator: `correlate` and `find_delay`

The float square root (`np.sqrt`, used by the correlation normalization and
by `StandardScaler`) is irrational-valued, so it is abstracted as a parameter
`sqrtFn`; the properties proved below hold for every `sqrtFn`. -/

/-- Row dot product (`np.dot` on centered rows). -/
def dotQ (a b : List ℚ) : ℚ := listSum (a.zipWith (fun x y => x * y) b)

/-- Center a row by subtracting its mean. -/
def centerRow (r : List ℚ) : List ℚ := r.map (fun x => x - listMean r)

/-- `correlate` from `interfaces.py`, in the 2-D × 1-D shape `find_delay`
uses: rows of `a` and the reference are centered, and each centered row's dot
product with the centered reference is divided by
`sqrt(row_sum_of_squares * ref_sum_of_squares)`. -/
def correlate (sqrtFn : ℚ → ℚ) (a : List (List ℚ)) (b : List ℚ) : List ℚ :=
  let bc := centerRow b
  let b_sos := listSum (bc.map (fun x => x * x))
  a.map (fun r =>
    let rc := centerRow r
    let r_sos := listSum (rc.map (fun x => x * x))
    dotQ rc bc / sqrtFn (r_sos * b_sos))

/-- One trace standardized as by sklearn `StandardScaler`: subtract the mean,
divide by the population standard deviation (`sqrtFn` of the variance), a
zero scale being replaced by 1 (`_handle_zeros_in_scale`). -/
def stdColumn (sqrtFn : ℚ → ℚ) (col : List ℚ) : List ℚ :=
  let m := listMean col
  let v := listMean (col.map (fun x => (x - m) * (x - m)))
  let s := sqrtFn v
  let s2 := if s = 0 then 1 else s
  col.map (fun x => (x - m) / s2)

/-- NumPy transpose of a rectangular rows × channels array. -/
def matT (m : List (List ℚ)) : List (List ℚ) :=
  (List.range (m.headD []).length).map (fun j => m.map (fun r => r.getD j 0))

/-- `scale` from `interfaces.py`: standardize one 1-D trace. -/
def scale (sqrtFn : ℚ → ℚ) (x : List ℚ) : List ℚ := stdColumn sqrtFn x

/-- The channel-major standardized signal of `find_delay`
(`StandardScaler().fit_transform(arr).T`; transposing the column-standardized
rectangular array equals standardizing the rows of the transpose), then
optionally rectified to the positive part (`a_scaled * (a_scaled > 0)`). -/
def processedChannels (sqrtFn : ℚ → ℚ) (arr : List (List ℚ)) (rect_data : Bool) :
    List (List ℚ) :=
  let aT := (matT arr).map (stdColumn sqrtFn)
  if rect_data then aT.map (fun r => r.map (fun x => if 0 < x then x else 0)) else aT

/-- `b_scaled` of `find_delay`: the reference, standardized when `scaleref`. -/
def processedRef (sqrtFn : ℚ → ℚ) (reference : List ℚ) (scaleref : Bool) : List ℚ :=
  if scaleref then scale sqrtFn reference else reference

/-- `np.roll(b, k)`: circular shift, placing `b[(i - k) mod n]` at position `i`. -/
def npRoll (b : List ℚ) (k : ℤ) : List ℚ :=
  (List.range b.length).map (fun i => b.getD (((i : ℤ) - k) % (b.length : ℤ)).toNat 0)

/-- `list(range(-maxshift, maxshift))`. -/
def shiftList (maxshift : ℕ) : List ℤ :=
  (List.range (2 * maxshift)).map (fun i : ℕ => (i : ℤ) - maxshift)

/-- `np.argmax` over a vector: index of the first occurrence of the maximum
(0 on the empty list). -/
def argmaxIdx : List ℚ → ℕ
  | [] => 0
  | x :: xs =>
    if xs.isEmpty then 0
    else if x < xs.getD (argmaxIdx xs) 0 then argmaxIdx xs + 1 else 0

/-- The per-channel correlations of the processed signal against the
reference rolled by `-s` (the body of the `corrs` comprehension of
`find_delay`). -/
def delayCorr (sqrtFn : ℚ → ℚ) (arr : List (List ℚ)) (reference : List ℚ)
    (scaleref rect_data : Bool) (s : ℤ) : List ℚ :=
  correlate sqrtFn (processedChannels sqrtFn arr rect_data)
    (npRoll (processedRef sqrtFn reference scaleref) (-s))

/-- `find_delay` from `interfaces.py`: correlations for every shift in
`range(-maxshift, maxshift)`, first-occurrence argmax per channel, and the
sign-inverted delay `-(shift * tr)`. -/
def find_delay (sqrtFn : ℚ → ℚ) (arr : List (List ℚ)) (reference : List ℚ)
    (maxshift : ℕ) (tr : ℚ) (scaleref rect_data : Bool) : List ℚ :=
  let corrs := (shiftList maxshift).map
    (fun x => delayCorr sqrtFn arr reference scaleref rect_data x)
  ((List.range (processedChannels sqrtFn arr rect_data).length).map (fun c =>
    (shiftList maxshift).getD (argmaxIdx (corrs.map (fun row => row.getD c 0))) 0)).map
    (fun d : ℤ => -((d : ℚ) * tr))

/-! ## QuadratureDemodulator: `moving_average` and `make_traces`

The scipy Butterworth zero-phase filter (`butter` + `sosfiltfilt`, order 4,
cutoff `frequency/2`) has transcendental coefficients and is abstracted as a
parameter `filtFn`; `sinFn`/`cosFn` stand for `x ↦ sin(2πx)`/`x ↦ cos(2πx)`
(also transcendental).  The claims proved below hold for every realization. -/

/-- `np.cumsum` with a running total. -/
def cumsumFrom (s : ℚ) : List ℚ → List ℚ
  | [] => []
  | x :: xs => (s + x) :: cumsumFrom (s + x) xs

/-- `np.cumsum`. -/
def cumsum (a : List ℚ) : List ℚ := cumsumFrom 0 a

/-- `moving_average` from `interfaces.py`: cumulative sums, the slice
assignment `ret[n:] = ret[n:] - ret[:-n]`, then `ret[n-1:] / n`. -/
def moving_average (a : List ℚ) (n : ℕ) : List ℚ :=
  let ret := cumsum a
  let ret2 := (List.range ret.length).map
    (fun i => if n ≤ i then ret.getD i 0 - ret.getD (i - n) 0 else ret.getD i 0)
  (ret2.drop (n - 1)).map (fun x => x / (n : ℚ))

/-- The reference waveform of `make_traces`: `w(frequency·(t - offset + tr/2))`
at the sample times `t = k·tr` (`w` absorbs the `2π` factor of the source's
`np.sin`/`np.cos` argument). -/
def refWave (w : ℚ → ℚ) (n : ℕ) (frequency tr offset : ℚ) : List ℚ :=
  ((List.range n).map (fun x : ℕ => (x : ℚ) * tr)).map
    (fun x => w (frequency * (x - offset + tr / 2)))

/-- `make_traces` from `interfaces.py`.  Note the data flow of the source: it
filters the *product* of the raw signal and each reference waveform
(`sosfiltfilt(sos, multiplier_s)`), then takes the moving average and trims
`window` samples from each end (`[window:-window]`). -/
def make_traces (filtFn : List ℚ → List ℚ) (sinFn cosFn : ℚ → ℚ) (signals : List ℚ)
    (frequency tr offset : ℚ) (window : ℕ) : List ℚ × List ℚ :=
  let s := refWave sinFn signals.length frequency tr offset
  let c := refWave cosFn signals.length frequency tr offset
  let mult_s := signals.zipWith (fun a b => a * b) s
  let mult_c := signals.zipWith (fun a b => a * b) c
  (pySlice (moving_average (filtFn mult_s) window) window (-(window : ℤ)),
   pySlice (moving_average (filtFn mult_c) window) window (-(window : ℤ)))

/-- Modelled from the spec: the pipeline in the order the spec describes —
band-limit the signal FIRST, then multiply the filtered signal by the
reference waveforms, then moving-average and trim.  Used only to compare with
the source order of `make_traces`. -/
def make_traces_specorder (filtFn : List ℚ → List ℚ) (sinFn cosFn : ℚ → ℚ)
    (signals : List ℚ) (frequency tr offset : ℚ) (window : ℕ) : List ℚ × List ℚ :=
  let filtered := filtFn signals
  let s := refWave sinFn signals.length frequency tr offset
  let c := refWave cosFn signals.length frequency tr offset
  let mult_s := filtered.zipWith (fun a b => a * b) s
  let mult_c := filtered.zipWith (fun a b => a * b) c
  (pySlice (moving_average mult_s window) window (-(window : ℤ)),
   pySlice (moving_average mult_c window) window (-(window : ℤ)))

/-- A concrete linear filter separating the two pipeline orders: every sample
becomes the sum of itself and its right neighbor. -/
def nbrSum (l : List ℚ) : List ℚ :=
  (List.range l.length).map (fun i => l.getD i 0 + l.getD (i + 1) 0)

/-! ## Theorems -/

theorem listSum_append (a b : List ℚ) : listSum (a ++ b) = listSum a + listSum b := by
  induction a with
  | nil => simp [listSum]
  | cons x xs ih => simp [listSum, List.foldr_cons] at ih ⊢; rw [ih]; ring

theorem rangeMap_getD {β : Type} (f : ℕ → β) (n j : ℕ) (h : j < n) (d : β) :
    ((List.range n).map f).getD j d = f j := by
  rw [List.getD_eq_getElem?_getD, List.getElem?_map, List.getElem?_range h]
  rfl

theorem getD_map_of_lt {α β : Type} (l : List α) (f : α → β) (j : ℕ)
    (h : j < l.length) (d : β) (d' : α) :
    (l.map f).getD j d = f (l.getD j d') := by
  rw [List.getD_eq_getElem?_getD, List.getElem?_map,
    List.getElem?_eq_getElem h, List.getD_eq_getElem?_getD,
    List.getElem?_eq_getElem h]
  rfl

theorem affineGrid_length (a d : ℚ) (n : ℕ) : (affineGrid a d n).length = n := by
  rw [affineGrid, List.length_map, List.length_range]

theorem affineGrid_getD (a d : ℚ) (n k : ℕ) (h : k < n) :
    (affineGrid a d n).getD k 0 = a + (k : ℚ) * d :=
  rangeMap_getD (fun k : ℕ => a + (k : ℚ) * d) n k h 0

theorem offsetLoopF_isSome (p : ℚ) (hp : 0 < p) :
    ∀ (fuel : ℕ) (bound offset : ℚ), (⌊(bound - offset) / p⌋ + 1).toNat + 1 ≤ fuel →
      (offsetLoopF fuel bound p offset).isSome := by
  intro fuel
  induction fuel with
  | zero => intro bound offset h; omega
  | succ n ih =>
    intro bound offset h
    unfold offsetLoopF
    split
    · rename_i hle
      apply ih
      have hx : (0:ℚ) ≤ (bound - offset) / p := div_nonneg (by linarith) hp.le
      have h1 : (bound - (offset + p)) / p = (bound - offset) / p - 1 := by
        field_simp
        ring
      have h2 : ⌊(bound - (offset + p)) / p⌋ = ⌊(bound - offset) / p⌋ - 1 := by
        rw [h1]
        exact Int.floor_sub_one _
      have h3 : (0:ℤ) ≤ ⌊(bound - offset) / p⌋ := Int.floor_nonneg.mpr hx
      rw [h2]
      omega
    · simp

theorem offsetLoopF_eq (p : ℚ) :
    ∀ (fuel : ℕ) (bound offset o : ℚ), offsetLoopF fuel bound p offset = some o →
      (offset = o ∧ bound < o) ∨
        (∃ k : ℕ, o = offset + ((k : ℚ) + 1) * p ∧ offset + (k : ℚ) * p ≤ bound ∧ bound < o) := by
  intro fuel
  induction fuel with
  | zero => intro bound offset o h; simp [offsetLoopF] at h
  | succ n ih =>
    intro bound offset o h
    unfold offsetLoopF at h
    split at h
    · rename_i hle
      rcases ih bound (offset + p) o h with ⟨rfl, hb⟩ | ⟨k, hk, hk2, hb⟩
      · exact Or.inr ⟨0, by push_cast; ring, by simpa using hle, hb⟩
      · refine Or.inr ⟨k + 1, ?_, ?_, hb⟩
        · rw [hk]; push_cast; ring
        · push_cast
          linarith
    · rename_i hgt
      exact Or.inl ⟨by injection h, by injection h with h'; rw [← h']; linarith [not_le.mp hgt]⟩

theorem offsetLoopF_none (p : ℚ) (hp : p ≤ 0) :
    ∀ (fuel : ℕ) (bound offset : ℚ), offset ≤ bound → offsetLoopF fuel bound p offset = none := by
  intro fuel
  induction fuel with
  | zero => intro bound offset _; rfl
  | succ n ih =>
    intro bound offset hle
    unfold offsetLoopF
    rw [if_pos hle]
    exact ih bound (offset + p) (by linarith)

theorem rangeMap_getLast {β : Type} (f : ℕ → β) (n : ℕ) (hn : 1 ≤ n) :
    ((List.range n).map f).getLast? = some (f (n - 1)) := by
  obtain ⟨m, rfl⟩ : ∃ m, n = m + 1 := ⟨n - 1, by omega⟩
  rw [List.range_succ, List.map_append]
  simp

/-! ## Claims C2, C3, C9 (GridAlignment) -/

/-- C2 counterexample: at `stimulus_offset = 0`, `period = 7`,
`discard_transients = true`, `get_offset` returns 42, which lies outside the
claimed interval `[stimulus_offset + 40 - period, stimulus_offset + 40] = [33, 40]`. -/
theorem get_offset_window_cex :
    get_offset 0 (some 7) true = some 42 ∧ ¬ ((42 : ℚ) ≤ 0 + 40) ∧
      (0 : ℚ) < 40 ∧ (0 : ℚ) < 7 := by
  refine ⟨?_, by norm_num, by norm_num, by norm_num⟩
  simp only [get_offset]
  rw [if_pos ⟨by norm_num, trivial⟩]
  have hsome := offsetLoopF_isSome 7 (by norm_num) (loopFuel (0 + 39999/1000) 7 0)
    (0 + 39999/1000) 0 le_rfl
  obtain ⟨o, ho⟩ := Option.isSome_iff_exists.mp hsome
  rcases offsetLoopF_eq 7 _ _ _ _ ho with ⟨rfl, hb⟩ | ⟨k, hk, hk2, hb⟩
  · norm_num at hb
  · have h1 : (k : ℚ) < 6 := by linarith
    have h2 : (4 : ℚ) < (k : ℚ) := by linarith
    have h1' : k < 6 := by exact_mod_cast h1
    have h2' : 4 < k := by exact_mod_cast h2
    have hk5 : k = 5 := by omega
    rw [ho, hk, hk5]
    norm_num

/-- C2 (amended): for `stimulus_offset < 40`, `discard_transients = true` and
`0 < period`, `get_offset` returns `o = stimulus_offset + k·period` with `k ≥ 1`
and `stimulus_offset + 39.999 < o ≤ stimulus_offset + 39.999 + period`: the
boundary `stimulus_offset + 40` is accepted when a multiple lands on it exactly
(the 39.999 epsilon), but a generic period overshoots `stimulus_offset + 40`
by up to `period - 0.001`; the result is the first accumulated multiple
strictly above the epsilon-adjusted 40-second boundary, not the last one
below it. -/
theorem get_offset_steady_state (so p : ℚ) (hso : so < 40) (hp : 0 < p) :
    ∃ o : ℚ, get_offset so (some p) true = some o ∧
      (∃ k : ℕ, o = so + ((k : ℚ) + 1) * p) ∧
      so + 39999/1000 < o ∧ o ≤ so + 39999/1000 + p := by
  have hsome := offsetLoopF_isSome p hp (loopFuel (so + 39999/1000) p so)
    (so + 39999/1000) so le_rfl
  obtain ⟨o, ho⟩ := Option.isSome_iff_exists.mp hsome
  refine ⟨o, ?_, ?_⟩
  · simp only [get_offset]
    rw [if_pos ⟨hso, trivial⟩]
    exact ho
  · rcases offsetLoopF_eq p _ _ _ _ ho with ⟨rfl, hb⟩ | ⟨k, hk, hk2, hb⟩
    · exfalso; linarith
    · exact ⟨⟨k, hk⟩, hb, by rw [hk]; linarith⟩

/-- C2 witness: instantiation of the amended theorem at
`stimulus_offset = 0`, `period = 7`. -/
theorem get_offset_steady_state_w :
    (0 : ℚ) < 40 ∧ (0 : ℚ) < 7 ∧
      (∃ o : ℚ, get_offset 0 (some 7) true = some o ∧
        (∃ k : ℕ, o = 0 + ((k : ℚ) + 1) * 7) ∧
        (0 : ℚ) + 39999/1000 < o ∧ o ≤ 0 + 39999/1000 + 7) :=
  ⟨by norm_num, by norm_num, get_offset_steady_state 0 7 (by norm_num) (by norm_num)⟩

/-- C3 counterexample: `get_ntrials 70 10 1 6` has total duration
`(6-1)·1 = 5` and numerator `5 - 70 = -65`; the code floors `-65/10` to `-7`,
which is neither `0` (the claimed graceful failure) nor `-6` (truncation
toward zero, computed here by `pyInt`). -/
theorem get_ntrials_zero_cex :
    get_ntrials 70 10 1 6 = some (-7) ∧
      pyInt ((((6 : ℚ) - 1) * 1 - 70) / 10) = -6 ∧
      ((-7 : ℤ) ≠ 0 ∧ (-7 : ℤ) ≠ -6) := by
  refine ⟨?_, ?_, by norm_num⟩
  · simp only [get_ntrials]
    rw [rangeMap_getLast (fun x : ℕ => (x : ℚ) * 1) 6 (by norm_num)]
    norm_num
  · unfold pyInt
    rw [if_neg (by norm_num), Int.ceil_eq_iff]
    norm_num

/-- C3 (amended): `get_ntrials` returns the floor (rounding toward negative
infinity) of `((n_samples-1)·tr - offset) / period`; on a nonnegative quotient
this agrees with truncation toward zero (`pyInt`), but on a negative quotient
the result is negative — it is not clamped to zero and not truncated toward
zero. -/
theorem get_ntrials_floor_semantics (o p tr : ℚ) (n : ℕ) (hn : 1 ≤ n) (_hp : p ≠ 0) :
    get_ntrials o p tr n = some ⌊(((n : ℚ) - 1) * tr - o) / p⌋ ∧
      (0 ≤ (((n : ℚ) - 1) * tr - o) / p →
        (⌊(((n : ℚ) - 1) * tr - o) / p⌋ : ℤ) = pyInt ((((n : ℚ) - 1) * tr - o) / p)) := by
  constructor
  · simp only [get_ntrials]
    rw [rangeMap_getLast (fun x : ℕ => (x : ℚ) * tr) n hn]
    have hcast : ((n - 1 : ℕ) : ℚ) = (n : ℚ) - 1 := by
      rw [Nat.cast_sub hn]; norm_num
    simp only [hcast]
  · intro hq
    rw [pyInt, if_pos hq]

/-- C3 witness: instantiation of the amended theorem at
`offset = 54`, `period = 10`, `tr = 1`, `n_samples = 2`. -/
theorem get_ntrials_floor_semantics_w :
    1 ≤ 2 ∧ (10 : ℚ) ≠ 0 ∧
      (get_ntrials 54 10 1 2 = some ⌊(((2 : ℚ) - 1) * 1 - 54) / 10⌋ ∧
        (0 ≤ (((2 : ℚ) - 1) * 1 - 54) / 10 →
          (⌊(((2 : ℚ) - 1) * 1 - 54) / 10⌋ : ℤ) = pyInt ((((2 : ℚ) - 1) * 1 - 54) / 10))) :=
  ⟨by norm_num, by norm_num, get_ntrials_floor_semantics 54 10 1 2 (by norm_num) (by norm_num)⟩

/-- C9 counterexample: with `period = 0` where periodic analysis is required
(`stimulus_offset = 0 < 40`, `discard_transients = true`), the accumulation
loop never exits (`loopDiverges`): `get_offset` neither terminates with a
configuration error nor computes a result, contradicting the claimed failure
with an error. -/
theorem get_offset_config_error_cex :
    loopDiverges ((0 : ℚ) + 39999/1000) 0 0 ∧ get_offset 0 (some 0) true = none := by
  constructor
  · intro fuel
    exact offsetLoopF_none 0 le_rfl fuel _ 0 (by norm_num)
  · simp only [get_offset]
    rw [if_pos ⟨by norm_num, trivial⟩]
    exact offsetLoopF_none 0 le_rfl _ _ 0 (by norm_num)

/-- C9 (amended): with a zero or negative period where periodic analysis is
required, the offset loop diverges — no error is raised and no result is
produced; with `period` absent (aperiodic mode) `get_offset` returns
`stimulus_offset` unchanged. -/
theorem get_offset_invalid_period (so p : ℚ) (d : Bool) (hso : so < 40) (hp : p ≤ 0) :
    loopDiverges (so + 39999/1000) p so ∧
      get_offset so (some p) true = none ∧
      get_offset so none d = some so := by
  refine ⟨fun fuel => offsetLoopF_none p hp fuel _ so (by linarith), ?_, rfl⟩
  simp only [get_offset]
  rw [if_pos ⟨hso, trivial⟩]
  exact offsetLoopF_none p hp _ _ so (by linarith)

/-- C9 witness: instantiation of the amended theorem at
`stimulus_offset = 0`, `period = -1`, aperiodic toggle `false`. -/
theorem get_offset_invalid_period_w :
    (0 : ℚ) < 40 ∧ (-1 : ℚ) ≤ 0 ∧
      (loopDiverges ((0 : ℚ) + 39999/1000) (-1) 0 ∧
        get_offset 0 (some (-1)) true = none ∧
        get_offset 0 none false = some 0) :=
  ⟨by norm_num, by norm_num, get_offset_invalid_period 0 (-1) false (by norm_num) (by norm_num)⟩

theorem arangeMul_eq_affine (n : ℕ) (sr : ℚ) : arangeMul n sr = affineGrid 0 sr n := by
  unfold arangeMul affineGrid
  exact List.map_congr_left (fun k _ => by ring)

theorem affineGrid_uniform (a d : ℚ) (n : ℕ) : uniformGrid (affineGrid a d n) d := by
  intro i hi
  rw [affineGrid_length] at hi
  rw [affineGrid_getD a d n (i + 1) hi, affineGrid_getD a d n i (by omega)]
  push_cast
  ring

theorem affineGrid_map_sub (a d : ℚ) (n : ℕ) :
    (affineGrid a d n).map (fun t => t - a) = affineGrid 0 d n := by
  unfold affineGrid
  rw [List.map_map]
  exact List.map_congr_left (fun k _ => by simp)

theorem fftFreqs_eq_affine (n : ℕ) (sr : ℚ) :
    fftFreqs n sr = affineGrid 0 (1 / ((n : ℚ) * sr)) (n / 2 + 1) := by
  unfold fftFreqs affineGrid
  exact List.map_congr_left (fun k _ => by ring)

theorem getD_take {α : Type} (l : List α) (k i : ℕ) (h : i < k) (d : α) :
    (l.take k).getD i d = l.getD i d := by
  rw [List.getD_eq_getElem?_getD, List.getD_eq_getElem?_getD, List.getElem?_take, if_pos h]

theorem trialFold_length (nt : ℕ) (d : List (List ℚ)) :
    (trialFold nt d).length = d.length / nt := by
  unfold trialFold
  rw [List.length_map, List.length_range]

theorem featureAverage_length (d : List (List ℚ)) : (featureAverage d).length = d.length :=
  List.length_map _ _

theorem labelAverage_length (ls : List String) (d : List (List ℚ)) :
    (labelAverage ls d).length = d.length :=
  List.length_map _ _

theorem pscTransform_length (m : List ℚ) (d : List (List ℚ)) :
    (pscTransform m d).length = d.length :=
  List.length_map _ _

theorem addColMeans_length (m : List ℚ) (d : List (List ℚ)) :
    (addColMeans m d).length = d.length :=
  List.length_map _ _

theorem mkOscillation_fields (tr : ℚ) (period : Option ℚ) (data : List (List ℚ))
    (so : ℚ) (labels : Option (List String)) (disc : Bool) (σ0 : Oscillation)
    (h : mkOscillation tr period data so labels disc = some σ0) :
    σ0.tr = tr ∧ σ0.data = data ∧ σ0.tdata = data ∧ σ0.transformation_chain = [] ∧
      σ0.sampling_rate = tr ∧ σ0.grid = arangeMul data.length tr := by
  cases period with
  | none => simp [mkOscillation] at h
  | some p =>
    simp only [mkOscillation] at h
    cases hoff : get_offset so (some p) disc with
    | none =>
      simp only [hoff] at h
      exact Option.noConfusion h
    | some off =>
      simp only [hoff] at h
      cases hnt : get_ntrials off p tr data.length with
      | none =>
        simp only [hnt] at h
        exact Option.noConfusion h
      | some nt =>
        simp only [hnt, Option.some.injEq] at h
        subst h
        exact ⟨rfl, rfl, rfl, rfl, rfl, rfl⟩

theorem step_frame {σ σ' : Oscillation} (h : Step σ σ') :
    σ'.data = σ.data ∧ σ'.tr = σ.tr ∧ σ'.offset = σ.offset ∧ σ'.n_trials = σ.n_trials := by
  cases h with
  | average s heq =>
    unfold Oscillation.average at heq
    split at heq <;>
      (injection heq with heq; subst heq; exact ⟨rfl, rfl, rfl, rfl⟩)
  | psc s b e heq =>
    simp only [Oscillation.psc] at heq
    split at heq
    · injection heq with heq
      subst heq
      exact ⟨rfl, rfl, rfl, rfl⟩
    · split at heq
      · simp at heq
      · injection heq with heq
        subst heq
        exact ⟨rfl, rfl, rfl, rfl⟩
  | detrend s f keep hf heq =>
    simp only [Oscillation.detrend] at heq
    split at heq
    · injection heq with heq
      subst heq
      exact ⟨rfl, rfl, rfl, rfl⟩
    · injection heq with heq
      subst heq
      exact ⟨rfl, rfl, rfl, rfl⟩
  | trial_average s boot ciL ciH heq =>
    simp only [Oscillation.trial_average] at heq
    split at heq
    · simp at heq
    · split at heq
      · injection heq with heq
        subst heq
        exact ⟨rfl, rfl, rfl, rfl⟩
      · simp at heq
  | interp s dt heq =>
    unfold Oscillation.interp at heq
    split at heq
    · simp at heq
    · simp only [] at heq
      split at heq
      · injection heq with heq
        subst heq
        exact ⟨rfl, rfl, rfl, rfl⟩
      · simp at heq
  | fft s f hf heq =>
    simp only [Oscillation.fft] at heq
    split at heq
    · injection heq with heq
      subst heq
      exact ⟨rfl, rfl, rfl, rfl⟩
    · simp at heq
  | reset =>
    exact ⟨rfl, rfl, rfl, rfl⟩

theorem reach_frame {σ0 σ : Oscillation} (h : Relation.ReflTransGen Step σ0 σ) :
    σ.data = σ0.data ∧ σ.tr = σ0.tr ∧ σ.offset = σ0.offset ∧ σ.n_trials = σ0.n_trials := by
  induction h with
  | refl => exact ⟨rfl, rfl, rfl, rfl⟩
  | tail _ hstep ih =>
    obtain ⟨h1, h2, h3, h4⟩ := step_frame hstep
    exact ⟨h1.trans ih.1, h2.trans ih.2.1, h3.trans ih.2.2.1, h4.trans ih.2.2.2⟩

theorem average_some {σ σ' : Oscillation} (h : σ.average = some σ') :
    σ'.tdata.length = σ.tdata.length ∧ σ'.grid = σ.grid ∧
      σ'.sampling_rate = σ.sampling_rate := by
  unfold Oscillation.average at h
  split at h <;>
    (injection h with h; subst h; exact ⟨List.length_map _ _, rfl, rfl⟩)

theorem psc_some {σ σ' : Oscillation} {b : ℚ} {e : Option ℚ} (h : σ.psc b e = some σ') :
    σ'.tdata.length = σ.tdata.length ∧ σ'.grid = σ.grid ∧
      σ'.sampling_rate = σ.sampling_rate := by
  simp only [Oscillation.psc] at h
  split at h
  · injection h with h
    subst h
    exact ⟨rfl, rfl, rfl⟩
  · split at h
    · simp at h
    · injection h with h
      subst h
      exact ⟨List.length_map _ _, rfl, rfl⟩

theorem detrend_some {σ σ' : Oscillation} {f : List (List ℚ) → List (List ℚ)} {keep : Bool}
    (hf : ∀ d, (f d).length = d.length) (h : σ.detrend f keep = some σ') :
    σ'.tdata.length = σ.tdata.length ∧ σ'.grid = σ.grid ∧
      σ'.sampling_rate = σ.sampling_rate := by
  simp only [Oscillation.detrend] at h
  split at h
  · injection h with h
    subst h
    exact ⟨rfl, rfl, rfl⟩
  · injection h with h
    subst h
    refine ⟨?_, rfl, rfl⟩
    cases keep <;> simp [Oscillation.applyT, addColMeans, hf]

theorem trial_average_some {σ σ' : Oscillation} {boot : Bool} {ciL ciH : List (List ℚ)}
    (h : σ.trial_average boot ciL ciH = some σ') :
    1 ≤ σ.n_trials ∧ σ.n_trials.toNat ∣ σ.tdata.length ∧
      σ'.tdata = trialFold σ.n_trials.toNat σ.tdata ∧
      σ'.grid = σ.grid.take (trialFold σ.n_trials.toNat σ.tdata).length ∧
      2 ≤ σ'.grid.length ∧
      σ'.sampling_rate = σ'.grid.getD 1 0 - σ'.grid.getD 0 0 := by
  simp only [Oscillation.trial_average] at h
  split at h
  · simp at h
  · rename_i hguard
    push_neg at hguard
    split at h
    · rename_i h2
      injection h with h
      subst h
      exact ⟨hguard.1, hguard.2, rfl, rfl, h2, rfl⟩
    · simp at h

theorem interp_some {σ σ' : Oscillation} {dt : ℚ} (h : σ.interp dt = some σ') :
    ∃ p, σ.period = some p ∧
      2 ≤ (targetGridOf p σ.tr dt σ.offset σ.tdata.length).length ∧
      σ'.tdata = (targetGridOf p σ.tr dt σ.offset σ.tdata.length).map
        (fun t => interpRowAt σ.tdata σ.tr t) ∧
      σ'.grid = (targetGridOf p σ.tr dt σ.offset σ.tdata.length).map (fun t => t - σ.offset) ∧
      σ'.sampling_rate = σ'.grid.getD 1 0 - σ'.grid.getD 0 0 := by
  unfold Oscillation.interp at h
  split at h
  · simp at h
  · rename_i per p hper
    simp only [] at h
    split at h
    · rename_i h2
      injection h with h
      subst h
      exact ⟨p, hper, h2, rfl, rfl, rfl⟩
    · simp at h

theorem fftFreqs_length (n : ℕ) (sr : ℚ) : (fftFreqs n sr).length = n / 2 + 1 := by
  rw [fftFreqs, List.length_map, List.length_range]

theorem fft_some {σ σ' : Oscillation} {f : List (List ℚ) → List (List ℚ)}
    (h : σ.fft f = some σ') :
    2 ≤ (fftFreqs σ.tdata.length σ.sampling_rate).length ∧
      σ'.tdata = f σ.tdata ∧
      σ'.grid = fftFreqs σ.tdata.length σ.sampling_rate ∧
      σ'.sampling_rate = σ'.grid.getD 1 0 - σ'.grid.getD 0 0 := by
  simp only [Oscillation.fft] at h
  split at h
  · rename_i h2
    injection h with h
    subst h
    exact ⟨h2, rfl, rfl, rfl⟩
  · simp at h

theorem uniformGrid_of_affine0 (d : ℚ) (n : ℕ) (g : List ℚ) (hgdef : g = affineGrid 0 d n)
    (h2 : 2 ≤ g.length) : uniformGrid g (g.getD 1 0 - g.getD 0 0) := by
  subst hgdef
  rw [affineGrid_length] at h2
  have e1 : (affineGrid 0 d n).getD 1 0 = 0 + (1 : ℚ) * d := by
    have := affineGrid_getD 0 d n 1 (by omega)
    simpa using this
  have e0 : (affineGrid 0 d n).getD 0 0 = 0 + (0 : ℚ) * d := by
    have := affineGrid_getD 0 d n 0 (by omega)
    simpa using this
  have ed : (affineGrid 0 d n).getD 1 0 - (affineGrid 0 d n).getD 0 0 = d := by
    rw [e1, e0]; ring
  rw [ed]
  exact affineGrid_uniform 0 d n

theorem uniformGrid_shifted_of_affine (a d : ℚ) (n : ℕ) (g : List ℚ)
    (hgdef : g = affineGrid a d n) (h2 : 2 ≤ g.length) :
    uniformGrid (g.map (fun t => t - a))
      ((g.map (fun t => t - a)).getD 1 0 - (g.map (fun t => t - a)).getD 0 0) := by
  subst hgdef
  rw [affineGrid_map_sub]
  apply uniformGrid_of_affine0 d n _ rfl
  rw [affineGrid_length] at h2 ⊢
  exact h2

theorem mkOscillation_gridInvariant (tr : ℚ) (period : Option ℚ) (data : List (List ℚ))
    (so : ℚ) (labels : Option (List String)) (disc : Bool) (σ0 : Oscillation)
    (h : mkOscillation tr period data so labels disc = some σ0) :
    gridInvariant σ0 := by
  obtain ⟨htr, _, htd, _, hsr, hgr⟩ := mkOscillation_fields tr period data so labels disc σ0 h
  constructor
  · rw [hgr, htd, arangeMul_eq_affine, affineGrid_length]
  · rw [hgr, hsr, arangeMul_eq_affine]
    exact affineGrid_uniform 0 tr data.length

theorem step_gridInvariant {σ σ' : Oscillation} (h : Step σ σ') (hinv : gridInvariant σ) :
    gridInvariant σ' := by
  cases h with
  | average s heq =>
    obtain ⟨hlen, hgap⟩ := hinv
    obtain ⟨h1, h2, h3⟩ := average_some heq
    exact ⟨by rw [h2, h1]; exact hlen, by rw [h2, h3]; exact hgap⟩
  | psc s b e heq =>
    obtain ⟨hlen, hgap⟩ := hinv
    obtain ⟨h1, h2, h3⟩ := psc_some heq
    exact ⟨by rw [h2, h1]; exact hlen, by rw [h2, h3]; exact hgap⟩
  | detrend s f keep hf heq =>
    obtain ⟨hlen, hgap⟩ := hinv
    obtain ⟨h1, h2, h3⟩ := detrend_some hf heq
    exact ⟨by rw [h2, h1]; exact hlen, by rw [h2, h3]; exact hgap⟩
  | trial_average s boot ciL ciH heq =>
    obtain ⟨hlen, hgap⟩ := hinv
    obtain ⟨hnt, hdvd, ht, hg, h2, hsr⟩ := trial_average_some heq
    have hcyc : (trialFold σ.n_trials.toNat σ.tdata).length = σ.tdata.length / σ.n_trials.toNat :=
      trialFold_length _ _
    have hLle : (trialFold σ.n_trials.toNat σ.tdata).length ≤ σ.grid.length := by
      rw [hcyc, hlen]
      exact Nat.div_le_self _ _
    have hg2 : 2 ≤ (σ'.grid).length := h2
    constructor
    · rw [hg, ht, List.length_take, Nat.min_eq_left hLle]
    · rw [hsr, hg]
      rw [hg, List.length_take, Nat.min_eq_left hLle] at hg2
      intro i hi
      rw [List.length_take, Nat.min_eq_left hLle] at hi
      rw [getD_take σ.grid _ (i + 1) hi 0, getD_take σ.grid _ i (by omega) 0,
        getD_take σ.grid _ 1 (by omega) 0, getD_take σ.grid _ 0 (by omega) 0]
      have hA := hgap i (by omega)
      have hB := hgap 0 (by omega)
      simp only [Nat.zero_add] at hB
      linarith
  | interp s dt heq =>
    obtain ⟨p, hper, h2, ht, hg, hsr⟩ := interp_some heq
    constructor
    · rw [hg, ht, List.length_map, List.length_map]
    · rw [hsr, hg]
      exact uniformGrid_shifted_of_affine σ.offset dt _ _ rfl h2
  | fft s f hf heq =>
    obtain ⟨h2, ht, hg, hsr⟩ := fft_some heq
    constructor
    · rw [hg, ht, hf, fftFreqs_length]
    · rw [hsr, hg]
      exact uniformGrid_of_affine0 (1 / ((σ.tdata.length : ℚ) * σ.sampling_rate)) _ _
        (fftFreqs_eq_affine _ _) h2
  | reset =>
    constructor
    · show (arangeMul σ.data.length σ.tr).length = σ.data.length
      rw [arangeMul_eq_affine, affineGrid_length]
    · show uniformGrid (arangeMul σ.data.length σ.tr) σ.tr
      rw [arangeMul_eq_affine]
      exact affineGrid_uniform 0 σ.tr σ.data.length

theorem mkOscillation_derived (tr : ℚ) (period : Option ℚ) (data : List (List ℚ))
    (so : ℚ) (labels : Option (List String)) (disc : Bool) (σ0 : Oscillation)
    (h : mkOscillation tr period data so labels disc = some σ0) :
    ∃ p, period = some p ∧ get_offset so (some p) disc = some σ0.offset ∧
      get_ntrials σ0.offset p tr data.length = some σ0.n_trials := by
  cases period with
  | none => simp [mkOscillation] at h
  | some p =>
    simp only [mkOscillation] at h
    cases hoff : get_offset so (some p) disc with
    | none =>
      simp only [hoff] at h
      exact Option.noConfusion h
    | some off =>
      simp only [hoff] at h
      cases hnt : get_ntrials off p tr data.length with
      | none =>
        simp only [hnt] at h
        exact Option.noConfusion h
      | some nt =>
        simp only [hnt, Option.some.injEq] at h
        subst h
        exact ⟨p, rfl, hoff, hnt⟩

theorem get_offset_14_10 : get_offset 14 (some 10) true = some 54 := by
  simp only [get_offset]
  rw [if_pos ⟨by norm_num, trivial⟩]
  have hsome := offsetLoopF_isSome 10 (by norm_num) (loopFuel (14 + 39999/1000) 10 14)
    (14 + 39999/1000) 14 le_rfl
  obtain ⟨o, ho⟩ := Option.isSome_iff_exists.mp hsome
  rcases offsetLoopF_eq 10 _ _ _ _ ho with ⟨rfl, hb⟩ | ⟨k, hk, hk2, hb⟩
  · norm_num at hb
  · have h1 : (k : ℚ) < 4 := by linarith
    have h2 : (2 : ℚ) < (k : ℚ) := by linarith
    have h1' : k < 4 := by exact_mod_cast h1
    have h2' : 2 < k := by exact_mod_cast h2
    have hk3 : k = 3 := by omega
    rw [ho, hk, hk3]
    norm_num

theorem mk_sample : mkOscillation 1 (some 10) [[1], [2]] 14 none true = some sampleOsc := by
  simp only [mkOscillation, get_offset_14_10]
  have hnt : get_ntrials 54 10 1 2 = some (-6) := by
    simp only [get_ntrials]
    rw [rangeMap_getLast (fun x : ℕ => (x : ℚ) * 1) 2 (by norm_num)]
    norm_num
  simp only [List.length_cons, List.length_nil, Nat.zero_add, Nat.reduceAdd, hnt]
  rfl

/-! ## Claims C1, C4, C10 (pipeline state invariants) -/

/-- C1: for every constructed `Oscillation` and every sequence of the public
transform operations, after each successful operation the length of `grid`
equals the row count of `tdata` and `sampling_rate` equals the spacing
between consecutive `grid` values (`gridInvariant`). -/
theorem oscillation_grid_sync (tr : ℚ) (period : Option ℚ) (data : List (List ℚ))
    (so : ℚ) (labels : Option (List String)) (disc : Bool) (σ0 σ : Oscillation)
    (h0 : mkOscillation tr period data so labels disc = some σ0)
    (h : Relation.ReflTransGen Step σ0 σ) : gridInvariant σ := by
  induction h with
  | refl => exact mkOscillation_gridInvariant tr period data so labels disc σ0 h0
  | tail _ hstep ih => exact step_gridInvariant hstep ih

/-- C1 witness: the invariant at the freshly constructed sample instance. -/
theorem oscillation_grid_sync_w :
    mkOscillation 1 (some 10) [[1], [2]] 14 none true = some sampleOsc ∧
      gridInvariant sampleOsc :=
  ⟨mk_sample, oscillation_grid_sync 1 (some 10) [[1], [2]] 14 none true sampleOsc sampleOsc
    mk_sample Relation.ReflTransGen.refl⟩

/-- C4: after any sequence of transform operations, `reset()` restores
`tdata`, `grid` and `sampling_rate` to exactly their post-construction
values and empties the transformation chain. -/
theorem oscillation_reset_roundtrip (tr : ℚ) (period : Option ℚ) (data : List (List ℚ))
    (so : ℚ) (labels : Option (List String)) (disc : Bool) (σ0 σ : Oscillation)
    (h0 : mkOscillation tr period data so labels disc = some σ0)
    (h : Relation.ReflTransGen Step σ0 σ) :
    (σ.reset).tdata = σ0.tdata ∧ (σ.reset).grid = σ0.grid ∧
      (σ.reset).sampling_rate = σ0.sampling_rate ∧
      (σ.reset).transformation_chain = [] := by
  obtain ⟨hdata, htr, _, _⟩ := reach_frame h
  obtain ⟨htr0, hdata0, htd0, _, hsr0, hgr0⟩ :=
    mkOscillation_fields tr period data so labels disc σ0 h0
  refine ⟨?_, ?_, ?_, rfl⟩
  · show σ.data = σ0.tdata
    rw [hdata, hdata0, htd0]
  · show arangeMul σ.data.length σ.tr = σ0.grid
    rw [hdata, htr, hdata0, htr0, hgr0]
  · show σ.tr = σ0.sampling_rate
    rw [htr, htr0, hsr0]

/-- C4 witness: the reset round trip at the sample instance. -/
theorem oscillation_reset_roundtrip_w :
    mkOscillation 1 (some 10) [[1], [2]] 14 none true = some sampleOsc ∧
      ((sampleOsc.reset).tdata = sampleOsc.tdata ∧
        (sampleOsc.reset).grid = sampleOsc.grid ∧
        (sampleOsc.reset).sampling_rate = sampleOsc.sampling_rate ∧
        (sampleOsc.reset).transformation_chain = []) :=
  ⟨mk_sample, oscillation_reset_roundtrip 1 (some 10) [[1], [2]] 14 none true sampleOsc
    sampleOsc mk_sample Relation.ReflTransGen.refl⟩

/-- C10: `offset` and `n_trials` are computed once at construction (from
`get_offset` and `get_ntrials`) and are left unchanged by every public
operation, `reset()` included — no operation recomputes them. -/
theorem oscillation_derived_fields_frame (tr : ℚ) (period : Option ℚ)
    (data : List (List ℚ)) (so : ℚ) (labels : Option (List String)) (disc : Bool)
    (σ0 σ : Oscillation)
    (h0 : mkOscillation tr period data so labels disc = some σ0)
    (h : Relation.ReflTransGen Step σ0 σ) :
    (∃ p, period = some p ∧ get_offset so (some p) disc = some σ0.offset ∧
      get_ntrials σ0.offset p tr data.length = some σ0.n_trials) ∧
      σ.offset = σ0.offset ∧ σ.n_trials = σ0.n_trials :=
  ⟨mkOscillation_derived tr period data so labels disc σ0 h0,
    (reach_frame h).2.2.1, (reach_frame h).2.2.2⟩

/-- C10 witness: the derived-field frame property at the sample instance. -/
theorem oscillation_derived_fields_frame_w :
    mkOscillation 1 (some 10) [[1], [2]] 14 none true = some sampleOsc ∧
      ((∃ p, (some 10 : Option ℚ) = some p ∧ get_offset 14 (some p) true = some sampleOsc.offset ∧
        get_ntrials sampleOsc.offset p 1 [[1], [2]].length = some sampleOsc.n_trials) ∧
        sampleOsc.offset = sampleOsc.offset ∧ sampleOsc.n_trials = sampleOsc.n_trials) :=
  ⟨mk_sample, oscillation_derived_fields_frame 1 (some 10) [[1], [2]] 14 none true sampleOsc
    sampleOsc mk_sample Relation.ReflTransGen.refl⟩

/-! ## Claims C5 and C8 (psc / detrend guards and baseline handling) -/

/-- C5: `psc` and `detrend` are guarded by the transformation chain: once an
application succeeded, a second application returns the state unchanged (same
`tdata`, `grid`, `sampling_rate` and chain) and raises no error. -/
theorem psc_detrend_reapply (σ σ₁ : Oscillation) (b b' : ℚ) (e e' : Option ℚ)
    (f f' : List (List ℚ) → List (List ℚ)) (k k' : Bool) :
    (Oscillation.psc σ b e = some σ₁ → Oscillation.psc σ₁ b' e' = some σ₁) ∧
      (Oscillation.detrend σ f k = some σ₁ → Oscillation.detrend σ₁ f' k' = some σ₁) := by
  constructor
  · intro h
    have hmem : "PSC" ∈ σ₁.transformation_chain := by
      simp only [Oscillation.psc] at h
      split at h
      · rename_i hin
        injection h with h
        subst h
        exact hin
      · split at h
        · simp at h
        · injection h with h
          subst h
          simp [Oscillation.applyT]
    simp only [Oscillation.psc]
    rw [if_pos hmem]
  · intro h
    have hmem : "Detrend" ∈ σ₁.transformation_chain := by
      simp only [Oscillation.detrend] at h
      split at h
      · rename_i hin
        injection h with h
        subst h
        exact hin
      · injection h with h
        subst h
        simp [Oscillation.applyT]
    simp only [Oscillation.detrend]
    rw [if_pos hmem]

theorem oscA_psc : Oscillation.psc oscA 0 none = some oscAP := by
  simp only [Oscillation.psc]
  rw [if_neg (by simp [oscA]), if_neg (by norm_num [oscA])]
  simp [oscA, oscAP, Oscillation.applyT, pySlice, pyInt, columnMeans, pscTransform,
    listMean, listSum, List.range_succ]
  norm_num

theorem oscA_detrend : Oscillation.detrend oscA (fun d => d) false = some oscAD := by
  simp only [Oscillation.detrend]
  rw [if_neg (by simp [oscA])]
  rfl

/-- C5 witness: re-applying `psc` (resp. `detrend`) to the concrete
post-transform states is the identity. -/
theorem psc_detrend_reapply_w :
    Oscillation.psc oscAP 0 none = some oscAP ∧
      Oscillation.detrend oscAD (fun d => d) false = some oscAD :=
  ⟨(psc_detrend_reapply oscA oscAP 0 0 none none (fun d => d) (fun d => d) false false).1
      oscA_psc,
    (psc_detrend_reapply oscA oscAD 0 0 none none (fun d => d) (fun d => d) false false).2
      oscA_detrend⟩

theorem pySlice_full {α : Type} (l : List α) : pySlice l 0 (l.length : ℤ) = l := by
  simp [pySlice]
  rw [if_neg (by omega : ¬ ((l.length : ℤ) < 0))]
  omega

/-- C8 (amended): `psc` falls back to using the entire series as the
baseline when the end-index conversion fails: with a nonzero sampling rate
and the default window `(0, np.inf)` the end conversion overflows, is
caught, and `end_vol` is clipped to the data length, so the PSC fit sees the
whole series.  A zero sampling rate instead raises an uncaught
ZeroDivisionError from the begin-index conversion (`none`), for any baseline
window — that conversion sits outside the `try` block, so the numeric error
propagates rather than triggering the fallback. -/
theorem psc_baseline_fallback (σ : Oscillation) (b : ℚ) (e : Option ℚ)
    (hch : "PSC" ∉ σ.transformation_chain) :
    (σ.sampling_rate = 0 → Oscillation.psc σ b e = none) ∧
      (σ.sampling_rate ≠ 0 → Oscillation.psc σ 0 none =
        some (σ.applyT
          (pscTransform (columnMeans σ.tdata (σ.tdata.headD []).length)) "PSC")) := by
  constructor
  · intro h0
    simp only [Oscillation.psc]
    rw [if_neg hch, if_pos h0]
  · intro hne
    simp only [Oscillation.psc]
    rw [if_neg hch, if_neg hne]
    have hb : pyInt (0 / σ.sampling_rate) = 0 := by
      rw [zero_div, pyInt]
      simp
    rw [hb, pySlice_full]

/-- C8 counterexample: a legitimately constructed instance with `tr = 0`
(zero divisor for the volume-index conversion).  The claim says `psc` falls
back to the entire series; the code instead propagates the ZeroDivisionError
(`none`), because `begin_vol = int(baseline_begin / sampling_rate)` sits
outside the `try` block. -/
theorem psc_zero_divisor_cex :
    mkOscillation 0 (some 10) [[1], [2]] 14 none true =
      some { tr := 0, period := some 10, data := [[1], [2]], stimulus_offset := 14,
             labels := none, discard_transients := true, tdata := [[1], [2]],
             transformation_chain := [], sampling_rate := 0, grid := arangeMul 2 0,
             offset := 54, n_trials := -6, emin := none, emax := none, ids := [""] } ∧
      Oscillation.psc
        { tr := 0, period := some 10, data := [[1], [2]], stimulus_offset := 14,
          labels := none, discard_transients := true, tdata := [[1], [2]],
          transformation_chain := [], sampling_rate := 0, grid := arangeMul 2 0,
          offset := 54, n_trials := -6, emin := none, emax := none, ids := [""] }
        0 none = none := by
  constructor
  · simp only [mkOscillation, get_offset_14_10]
    have hnt : get_ntrials 54 10 0 2 = some (-6) := by
      simp only [get_ntrials]
      rw [rangeMap_getLast (fun x : ℕ => (x : ℚ) * 0) 2 (by norm_num)]
      norm_num
    simp only [List.length_cons, List.length_nil, Nat.zero_add, Nat.reduceAdd, hnt]
  · simp [Oscillation.psc]

/-- C8 witness: with a nonzero sampling rate and the default window the
baseline is the entire series. -/
theorem psc_baseline_fallback_w :
    ("PSC" ∉ oscA.transformation_chain) ∧ oscA.sampling_rate ≠ 0 ∧
      Oscillation.psc oscA 0 none =
        some (oscA.applyT
          (pscTransform (columnMeans oscA.tdata (oscA.tdata.headD []).length)) "PSC") :=
  ⟨by simp [oscA], by norm_num [oscA],
    (psc_baseline_fallback oscA 0 none (by simp [oscA])).2 (by norm_num [oscA])⟩

theorem shiftList_length (m : ℕ) : (shiftList m).length = 2 * m := by
  rw [shiftList, List.length_map, List.length_range]

theorem shiftList_getD (m j : ℕ) (h : j < 2 * m) : (shiftList m).getD j 0 = (j : ℤ) - m :=
  rangeMap_getD (fun i : ℕ => (i : ℤ) - m) (2 * m) j h 0

theorem argmaxIdx_lt_length (l : List ℚ) (h : l ≠ []) : argmaxIdx l < l.length := by
  induction l with
  | nil => exact absurd rfl h
  | cons x xs ih =>
    simp only [argmaxIdx]
    split
    · simp
    · rename_i hxs
      split
      · have hne : xs ≠ [] := by
          intro hh
          rw [hh] at hxs
          simp at hxs
        have := ih hne
        simp only [List.length_cons]
        omega
      · simp

theorem argmaxIdx_le (l : List ℚ) (j : ℕ) (hj : j < l.length) :
    l.getD j 0 ≤ l.getD (argmaxIdx l) 0 := by
  induction l generalizing j with
  | nil => simp at hj
  | cons x xs ih =>
    simp only [argmaxIdx]
    split
    · rename_i hxs
      have : xs = [] := by simpa [List.isEmpty_iff] using hxs
      subst this
      simp only [List.length_cons, List.length_nil] at hj
      obtain rfl : j = 0 := by omega
      simp
    · rename_i hxs
      split
      · rename_i hlt
        cases j with
        | zero =>
          simp only [List.getD_cons_zero, List.getD_cons_succ]
          exact le_of_lt hlt
        | succ jj =>
          simp only [List.getD_cons_succ]
          exact ih jj (by simpa using hj)
      · rename_i hge
        push_neg at hge
        cases j with
        | zero => simp
        | succ jj =>
          simp only [List.getD_cons_succ, List.getD_cons_zero]
          exact le_trans (ih jj (by simpa using hj)) hge

theorem argmaxIdx_first (l : List ℚ) (j : ℕ) (hj : j < argmaxIdx l) :
    l.getD j 0 < l.getD (argmaxIdx l) 0 := by
  induction l generalizing j with
  | nil => simp [argmaxIdx] at hj
  | cons x xs ih =>
    simp only [argmaxIdx] at hj ⊢
    by_cases hxs : xs.isEmpty
    · rw [if_pos hxs] at hj
      omega
    · rw [if_neg hxs] at hj ⊢
      by_cases hlt : x < xs.getD (argmaxIdx xs) 0
      · rw [if_pos hlt] at hj ⊢
        cases j with
        | zero =>
          simp only [List.getD_cons_zero, List.getD_cons_succ]
          exact hlt
        | succ jj =>
          simp only [List.getD_cons_succ]
          exact ih jj (by omega)
      · rw [if_neg hlt] at hj
        omega

/-- C6: for every signal matrix, reference trace, `maxshift ≥ 1` and `tr > 0`
(for every square-root realization and both option flags), each channel's
`find_delay` output equals `-(s·tr)` for a shift `s` drawn from exactly the
integer shifts in `[-maxshift, maxshift)`; `s` maximizes that channel's
correlation with the reference circularly shifted by `-s`, and ties are
resolved deterministically by the first occurrence in shift-ascending order. -/
theorem find_delay_spec (sqrtFn : ℚ → ℚ) (arr : List (List ℚ)) (reference : List ℚ)
    (maxshift : ℕ) (tr : ℚ) (scaleref rect_data : Bool)
    (hms : 1 ≤ maxshift) (_htr : 0 < tr) (c : ℕ)
    (hc : c < (processedChannels sqrtFn arr rect_data).length) :
    ∃ s : ℤ, -(maxshift : ℤ) ≤ s ∧ s < maxshift ∧
      (find_delay sqrtFn arr reference maxshift tr scaleref rect_data).getD c 0 =
        -((s : ℚ) * tr) ∧
      (∀ s' : ℤ, -(maxshift : ℤ) ≤ s' → s' < (maxshift : ℤ) →
        (delayCorr sqrtFn arr reference scaleref rect_data s').getD c 0 ≤
          (delayCorr sqrtFn arr reference scaleref rect_data s).getD c 0) ∧
      (∀ s' : ℤ, -(maxshift : ℤ) ≤ s' → s' < (maxshift : ℤ) →
        (delayCorr sqrtFn arr reference scaleref rect_data s').getD c 0 =
          (delayCorr sqrtFn arr reference scaleref rect_data s).getD c 0 → s ≤ s') := by
  set F : ℤ → ℚ := fun x => (delayCorr sqrtFn arr reference scaleref rect_data x).getD c 0
    with hF
  set col : List ℚ := (shiftList maxshift).map F with hcol
  have hcollen : col.length = 2 * maxshift := by
    rw [hcol, List.length_map, shiftList_length]
  have hcolne : col ≠ [] := by
    intro hh
    rw [hh] at hcollen
    simp at hcollen
    omega
  have hjlt : argmaxIdx col < 2 * maxshift := by
    have := argmaxIdx_lt_length col hcolne
    omega
  set jstar : ℕ := argmaxIdx col with hjstar
  set s : ℤ := (jstar : ℤ) - maxshift with hs
  have hcolget : ∀ j, j < 2 * maxshift → col.getD j 0 = F ((j : ℤ) - maxshift) := by
    intro j hj
    rw [hcol, getD_map_of_lt (shiftList maxshift) F j (by rw [shiftList_length]; exact hj) 0 0,
      shiftList_getD maxshift j hj]
  have e2 : F s = col.getD jstar 0 := by
    rw [hcolget jstar hjlt]
  have eS : ∀ s' : ℤ, -(maxshift : ℤ) ≤ s' → s' < (maxshift : ℤ) →
      F s' = col.getD (s' + maxshift).toNat 0 := by
    intro s' h1 h2
    have hj' : (s' + maxshift).toNat < 2 * maxshift := by omega
    rw [hcolget _ hj']
    congr 1
    omega
  refine ⟨s, by omega, by omega, ?_, ?_, ?_⟩
  · have key : find_delay sqrtFn arr reference maxshift tr scaleref rect_data =
        ((List.range (processedChannels sqrtFn arr rect_data).length).map (fun c' =>
          (shiftList maxshift).getD (argmaxIdx (((shiftList maxshift).map
            (fun x => delayCorr sqrtFn arr reference scaleref rect_data x)).map
              (fun row => row.getD c' 0))) 0)).map (fun d : ℤ => -((d : ℚ) * tr)) := rfl
    rw [key, getD_map_of_lt _ (fun d : ℤ => -((d : ℚ) * tr)) c
        (by rw [List.length_map, List.length_range]; exact hc) 0 0,
      rangeMap_getD _ _ c hc 0]
    have hmm : ((shiftList maxshift).map
        (fun x => delayCorr sqrtFn arr reference scaleref rect_data x)).map
          (fun row => row.getD c 0) = col := by
      rw [List.map_map, hcol]
      rfl
    rw [hmm, ← hjstar, shiftList_getD maxshift jstar hjlt, hs]
  · intro s' h1 h2
    show F s' ≤ F s
    rw [e2, eS s' h1 h2]
    exact argmaxIdx_le col _ (by rw [hcollen]; omega)
  · intro s' h1 h2 heq
    have heq' : F s' = F s := heq
    by_contra hcon
    push_neg at hcon
    have hj'lt : (s' + maxshift).toNat < argmaxIdx col := by
      rw [← hjstar]
      omega
    have hlt2 := argmaxIdx_first col _ hj'lt
    rw [← hjstar] at hlt2
    rw [← eS s' h1 h2, ← e2, heq'] at hlt2
    exact lt_irrefl _ hlt2

/-- C6 witness: instantiation at a one-channel two-sample signal,
`maxshift = 1`, `tr = 1`, identity square root, no rescaling options. -/
theorem find_delay_spec_w :
    1 ≤ 1 ∧ (0 : ℚ) < 1 ∧ 0 < (processedChannels (fun x => x) [[1], [2]] false).length ∧
      (∃ s : ℤ, -(1 : ℤ) ≤ s ∧ s < 1 ∧
        (find_delay (fun x => x) [[1], [2]] [1, 2] 1 1 false false).getD 0 0 =
          -((s : ℚ) * 1) ∧
        (∀ s' : ℤ, -(1 : ℤ) ≤ s' → s' < (1 : ℤ) →
          (delayCorr (fun x => x) [[1], [2]] [1, 2] false false s').getD 0 0 ≤
            (delayCorr (fun x => x) [[1], [2]] [1, 2] false false s).getD 0 0) ∧
        (∀ s' : ℤ, -(1 : ℤ) ≤ s' → s' < (1 : ℤ) →
          (delayCorr (fun x => x) [[1], [2]] [1, 2] false false s').getD 0 0 =
            (delayCorr (fun x => x) [[1], [2]] [1, 2] false false s).getD 0 0 → s ≤ s')) :=
  ⟨le_rfl, by norm_num, by simp [processedChannels, matT],
    find_delay_spec (fun x => x) [[1], [2]] [1, 2] 1 1 false false le_rfl (by norm_num) 0
      (by simp [processedChannels, matT])⟩

theorem cumsumFrom_length (s : ℚ) (a : List ℚ) : (cumsumFrom s a).length = a.length := by
  induction a generalizing s with
  | nil => rfl
  | cons x xs ih => simp [cumsumFrom, ih]

theorem cumsum_length (a : List ℚ) : (cumsum a).length = a.length := cumsumFrom_length 0 a

theorem cumsumFrom_getD (a : List ℚ) :
    ∀ (s : ℚ) (i : ℕ), i < a.length →
      (cumsumFrom s a).getD i 0 = s + listSum (a.take (i + 1)) := by
  induction a with
  | nil => intro s i hi; simp at hi
  | cons x xs ih =>
    intro s i hi
    cases i with
    | zero =>
      simp [cumsumFrom, listSum]
    | succ j =>
      rw [cumsumFrom]
      simp only [List.getD_cons_succ, List.take_succ_cons]
      rw [ih (s + x) j (by simpa using hi)]
      simp [listSum]
      ring

theorem listSum_take_drop (a : List ℚ) (k n : ℕ) :
    listSum (a.take (k + n)) = listSum (a.take k) + listSum ((a.drop k).take n) := by
  rw [List.take_add, listSum_append]

theorem moving_average_length (a : List ℚ) (n : ℕ) :
    (moving_average a n).length = a.length - (n - 1) := by
  simp [moving_average, cumsum_length]

theorem moving_average_getD (a : List ℚ) (n k : ℕ) (hn : 1 ≤ n) (hk : k + n ≤ a.length) :
    (moving_average a n).getD k 0 = listSum ((a.drop k).take n) / n := by
  simp only [moving_average]
  have hcl : (cumsum a).length = a.length := cumsum_length a
  rw [getD_map_of_lt _ (fun x => x / (n : ℚ)) k
    (by simp [hcl]; omega) 0 0]
  have hdg : ∀ (L : List ℚ), (L.drop (n - 1)).getD k 0 = L.getD (n - 1 + k) 0 := by
    intro L
    rw [List.getD_eq_getElem?_getD, List.getD_eq_getElem?_getD, List.getElem?_drop]
  rw [hdg, rangeMap_getD _ _ (n - 1 + k) (by rw [hcl]; omega) 0]
  have hcg : ∀ i : ℕ, i < a.length → (cumsum a).getD i 0 = listSum (a.take (i + 1)) := by
    intro i hi
    rw [cumsum, cumsumFrom_getD a 0 i hi, zero_add]
  cases k with
  | zero =>
    rw [if_neg (by omega)]
    simp only [Nat.add_zero]
    rw [hcg (n - 1) (by omega), (by omega : n - 1 + 1 = n), List.drop_zero]
  | succ j =>
    rw [if_pos (by omega)]
    rw [(by omega : n - 1 + (j + 1) = n + j), (by omega : n + j - n = j)]
    rw [hcg (n + j) (by omega), hcg j (by omega)]
    have hsum := listSum_take_drop a (j + 1) n
    rw [(by omega : j + 1 + n = n + j + 1)] at hsum
    have hnum : listSum (a.take (n + j + 1)) - listSum (a.take (j + 1)) =
        listSum ((a.drop (j + 1)).take n) := by
      rw [hsum]
      ring
    rw [hnum]

theorem pySlice_trim_getD {α : Type} (l : List α) (w i : ℕ) (d : α) (hw : 1 ≤ w)
    (h : i + 2 * w < l.length) :
    (pySlice l w (-(w : ℤ))).getD i d = l.getD (w + i) d := by
  simp only [pySlice]
  rw [if_pos (show -(w : ℤ) < 0 by omega), if_neg (show ¬((w : ℤ) < 0) by omega)]
  have hbt : (max ((l.length : ℤ) + -(w : ℤ)) 0).toNat = l.length - w := by omega
  have hat : (min (w : ℤ) (l.length : ℤ)).toNat = w := by omega
  rw [hbt, hat]
  rw [List.getD_eq_getElem?_getD, List.getElem?_drop, List.getElem?_take,
    if_pos (by omega : w + i < l.length - w), ← List.getD_eq_getElem?_getD]

theorem pySlice_trim_length {α : Type} (l : List α) (w : ℕ) (hw : 1 ≤ w) :
    (pySlice l w (-(w : ℤ))).length = l.length - 2 * w := by
  simp only [pySlice]
  rw [if_pos (show -(w : ℤ) < 0 by omega), if_neg (show ¬((w : ℤ) < 0) by omega)]
  rw [List.length_drop, List.length_take]
  omega

/-- C7 (amended): the traces are computed by multiplying the RAW signal
elementwise by the sine and cosine reference waveforms, applying the
zero-phase low-pass filter to each *product*, then taking a `window`-sample
moving average and dropping `window` samples from each end: each retained
trace sample `i` is the `window`-sample mean of the filtered product starting
at index `i + window`, and `2·window` samples are dropped overall.  (The
claim's order — filtering the signal before the multiplication — does not
match the code; see the counterexample.) -/
theorem make_traces_amended (filtFn : List ℚ → List ℚ) (sinFn cosFn : ℚ → ℚ)
    (signals : List ℚ) (frequency tr offset : ℚ) (window : ℕ) (hw : 1 ≤ window) :
    ((make_traces filtFn sinFn cosFn signals frequency tr offset window).1.length =
      (moving_average (filtFn (signals.zipWith (fun a b => a * b)
        (refWave sinFn signals.length frequency tr offset))) window).length - 2 * window ∧
      ∀ i : ℕ, i + 2 * window <
          (moving_average (filtFn (signals.zipWith (fun a b => a * b)
            (refWave sinFn signals.length frequency tr offset))) window).length →
        (make_traces filtFn sinFn cosFn signals frequency tr offset window).1.getD i 0 =
          listSum (((filtFn (signals.zipWith (fun a b => a * b)
            (refWave sinFn signals.length frequency tr offset))).drop (window + i)).take
              window) / window) ∧
    ((make_traces filtFn sinFn cosFn signals frequency tr offset window).2.length =
      (moving_average (filtFn (signals.zipWith (fun a b => a * b)
        (refWave cosFn signals.length frequency tr offset))) window).length - 2 * window ∧
      ∀ i : ℕ, i + 2 * window <
          (moving_average (filtFn (signals.zipWith (fun a b => a * b)
            (refWave cosFn signals.length frequency tr offset))) window).length →
        (make_traces filtFn sinFn cosFn signals frequency tr offset window).2.getD i 0 =
          listSum (((filtFn (signals.zipWith (fun a b => a * b)
            (refWave cosFn signals.length frequency tr offset))).drop (window + i)).take
              window) / window) := by
  constructor
  · constructor
    · exact pySlice_trim_length _ window hw
    · intro i hi
      show (pySlice (moving_average (filtFn (signals.zipWith (fun a b => a * b)
        (refWave sinFn signals.length frequency tr offset))) window) window
          (-(window : ℤ))).getD i 0 = _
      rw [pySlice_trim_getD _ window i 0 hw hi]
      apply moving_average_getD _ window (window + i) hw
      rw [moving_average_length] at hi
      omega
  · constructor
    · exact pySlice_trim_length _ window hw
    · intro i hi
      show (pySlice (moving_average (filtFn (signals.zipWith (fun a b => a * b)
        (refWave cosFn signals.length frequency tr offset))) window) window
          (-(window : ℤ))).getD i 0 = _
      rw [pySlice_trim_getD _ window i 0 hw hi]
      apply moving_average_getD _ window (window + i) hw
      rw [moving_average_length] at hi
      omega

/-- C7 counterexample: with the neighbor-sum filter, identity waveforms,
`signals = [1, 2, 4]`, `frequency = tr = 1`, `offset = 0`, `window = 1`, the
code's order (filter the signal×reference product) yields sine trace `[13]`,
while the claimed order (filter the signal first, then multiply) yields
`[9]`: the two pipelines do not agree. -/
theorem make_traces_order_cex :
    make_traces nbrSum (fun x => x) (fun x => x) [1, 2, 4] 1 1 0 1 ≠
        make_traces_specorder nbrSum (fun x => x) (fun x => x) [1, 2, 4] 1 1 0 1 ∧
      (make_traces nbrSum (fun x => x) (fun x => x) [1, 2, 4] 1 1 0 1).1 = [13] ∧
      (make_traces_specorder nbrSum (fun x => x) (fun x => x) [1, 2, 4] 1 1 0 1).1 = [9] := by
  have h1 : (make_traces nbrSum (fun x => x) (fun x => x) [1, 2, 4] 1 1 0 1).1 = [13] := by
    simp [make_traces, refWave, nbrSum, moving_average, cumsum, cumsumFrom, pySlice,
      listSum, List.range_succ, List.getD_cons_zero, List.getD_cons_succ]
    norm_num
  have h2 : (make_traces_specorder nbrSum (fun x => x) (fun x => x) [1, 2, 4] 1 1 0 1).1
      = [9] := by
    simp [make_traces_specorder, refWave, nbrSum, moving_average, cumsum, cumsumFrom,
      pySlice, listSum, List.range_succ, List.getD_cons_zero, List.getD_cons_succ]
    norm_num
  refine ⟨?_, h1, h2⟩
  intro h
  rw [h, h2] at h1
  norm_num at h1

/-- C7 witness: the amended characterization instantiated with the identity
filter and waveforms on `[1, 2, 4]`, `window = 1`. -/
theorem make_traces_amended_w :
    1 ≤ 1 ∧
      (((make_traces (fun l => l) (fun x => x) (fun x => x) [1, 2, 4] 1 1 0 1).1.length =
        (moving_average ((fun l => l) (([1, 2, 4] : List ℚ).zipWith (fun a b => a * b)
          (refWave (fun x => x) ([1, 2, 4] : List ℚ).length 1 1 0))) 1).length - 2 * 1 ∧
        ∀ i : ℕ, i + 2 * 1 <
            (moving_average ((fun l => l) (([1, 2, 4] : List ℚ).zipWith (fun a b => a * b)
              (refWave (fun x => x) ([1, 2, 4] : List ℚ).length 1 1 0))) 1).length →
          (make_traces (fun l => l) (fun x => x) (fun x => x) [1, 2, 4] 1 1 0 1).1.getD i 0 =
            listSum ((((fun l => l) (([1, 2, 4] : List ℚ).zipWith (fun a b => a * b)
              (refWave (fun x => x) ([1, 2, 4] : List ℚ).length 1 1 0))).drop (1 + i)).take
                1) / 1) ∧
      ((make_traces (fun l => l) (fun x => x) (fun x => x) [1, 2, 4] 1 1 0 1).2.length =
        (moving_average ((fun l => l) (([1, 2, 4] : List ℚ).zipWith (fun a b => a * b)
          (refWave (fun x => x) ([1, 2, 4] : List ℚ).length 1 1 0))) 1).length - 2 * 1 ∧
        ∀ i : ℕ, i + 2 * 1 <
            (moving_average ((fun l => l) (([1, 2, 4] : List ℚ).zipWith (fun a b => a * b)
              (refWave (fun x => x) ([1, 2, 4] : List ℚ).length 1 1 0))) 1).length →
          (make_traces (fun l => l) (fun x => x) (fun x => x) [1, 2, 4] 1 1 0 1).2.getD i 0 =
            listSum ((((fun l => l) (([1, 2, 4] : List ℚ).zipWith (fun a b => a * b)
              (refWave (fun x => x) ([1, 2, 4] : List ℚ).length 1 1 0))).drop (1 + i)).take
                1) / 1)) :=
  ⟨le_rfl, make_traces_amended (fun l => l) (fun x => x) (fun x => x) [1, 2, 4] 1 1 0 1 le_rfl⟩
